import Mathlib

/-!
Shallow embedding of the sigslot library (`src/sigslot.h`).

Signals and receivers are identified by natural numbers, and so are the
member-function pointers that serve as handlers.  The heap of a running
program is a `WState` mapping every signal id to its `m_connected_slots`
list and every receiver id to its `m_senders` set (kept as a
duplicate-free list; `std::set` order only fixes the iteration order of
per-signal updates that commute, so a list is an adequate model).  The
mt-policy classes (`single_threaded`, the mutex variants) and
`lock_block` only provide mutual exclusion and have no effect on the
sequential semantics embedded here; handlers are modelled as pure
observations, so `emit` produces a trace of invocations and leaves the
state unchanged, exactly as the loop in `signal::emit` does.
-/

namespace Sigslot

/-- The class `_connection<dest_type, mt_policy, Args...>`: it stores
`m_pobject` (the destination receiver, here its id) and `m_pmemfun`
(the member-function pointer, here a handler id).  `getdest()` returns
`m_pobject`; `duplicate(pnewdest)` builds a connection with the same
handler and the new destination. -/
structure Conn where
  dest : Nat
  handler : Nat
  deriving DecidableEq

/-- Global state of a program using the library: which signal and
receiver objects are alive, each signal's `m_connected_slots` list and
each receiver's `m_senders` set. -/
@[ext]
structure WState where
  sigAlive : List Nat
  recAlive : List Nat
  conns : Nat → List Conn
  senders : Nat → List Nat

/-- Pointwise update of a map (mutation of one object's field). -/
def upd {α : Type} (f : Nat → α) (i : Nat) (v : α) : Nat → α :=
  fun j => if j = i then v else f j

/-- Behaviour of `std::set::insert` on the sender set: adding an element
that is already present is a no-op. -/
def insertS (l : List Nat) (S : Nat) : List Nat :=
  if S ∈ l then l else l ++ [S]

/-- Behaviour of `std::set::erase(key)` on the sender set: the (unique)
occurrence of the key is removed; erasing an absent key is a no-op. -/
def eraseS : List Nat → Nat → List Nat
  | [], _ => []
  | x :: rest, S => if x = S then rest else x :: eraseS rest S

/-- The loop of `_signal::disconnect`: walk `m_connected_slots`, and at
the first connection whose `getdest()` equals the argument, delete it,
remove it from the list and break. -/
def removeFirst (R : Nat) : List Conn → List Conn
  | [] => []
  | c :: rest => if c.dest = R then rest else c :: removeFirst R rest

/-- The loop of `_signal::slot_disconnect`: remove every connection
whose `getdest()` equals `pslot`.  The C++ loop erases `it` and then
executes `++it`; this embedding reads the loop as continuing with the
element that followed the erased node, which is what the code plainly
intends.  (Incrementing the erased iterator itself is undefined
behaviour in C++ and is recorded as a defect of the source loop; the
upstream sigslot library advances a saved next-iterator instead.) -/
def slot_disconnect (R : Nat) : List Conn → List Conn
  | [] => []
  | c :: rest =>
    if c.dest = R then slot_disconnect R rest
    else c :: slot_disconnect R rest

/-- Connections appended by `_signal::slot_duplicate`: one per
connection targeting `oldt`, in list order, each rebuilt by
`_connection::duplicate` with destination `newt` and the same handler. -/
def dupsOf (oldt newt : Nat) : List Conn → List Conn
  | [] => []
  | c :: rest =>
    if c.dest = oldt then ⟨newt, c.handler⟩ :: dupsOf oldt newt rest
    else dupsOf oldt newt rest

/-- Number of connections in a list whose destination is `oldt`. -/
def matchCount (oldt : Nat) : List Conn → Nat
  | [] => 0
  | c :: rest => (if c.dest = oldt then 1 else 0) + matchCount oldt rest

/-- The loop of `_signal::slot_duplicate`, with fuel.  The C++ range-for
iterates `m_connected_slots` while `push_back` appends duplicates at the
end; because `std::list::end()` is a sentinel node, the iteration also
reaches the elements appended during the loop, so the traversal is
modelled as a queue: `visited` holds the elements already passed,
the third list the elements still ahead of the iterator.  `none` means
the fuel ran out before the iterator reached the end of the (growing)
list. -/
def slotDupFuel (oldt newt : Nat) : Nat → List Conn → List Conn → Option (List Conn)
  | _, visited, [] => some visited
  | 0, _, _ :: _ => none
  | fuel + 1, visited, c :: rest =>
    if c.dest = oldt then
      slotDupFuel oldt newt fuel (visited ++ [c]) (rest ++ [⟨newt, c.handler⟩])
    else
      slotDupFuel oldt newt fuel (visited ++ [c]) rest

/-- The function `_signal::slot_duplicate` on a connection list: run the
loop with fuel for the original elements plus the appended duplicates
(which is exactly the number of iterations the loop performs whenever
the new target differs from the old one). -/
def slot_duplicate (oldt newt : Nat) (l : List Conn) : List Conn :=
  (slotDupFuel oldt newt (l.length + matchCount oldt l) [] l).getD l

/-- The loop of `signal::emit`: invoke every connection in list order.
An invocation of `_connection::emit` is recorded as the triple
`(dest, handler, argument)`. -/
def emitLoop (a : Nat) : List Conn → List (Nat × Nat × Nat)
  | [] => []
  | c :: rest => (c.dest, c.handler, a) :: emitLoop a rest

/-- The loop of `_signal::disconnect_all`: for every connection, call
`getdest()->signal_disconnect(this)`, erasing the signal from the
destination's sender set. -/
def eraseSenders (S : Nat) : List Conn → (Nat → List Nat) → Nat → List Nat
  | [], f => f
  | c :: rest, f => eraseSenders S rest (upd f c.dest (eraseS (f c.dest) S))

/-- The loop of `has_slots::disconnect_all`: for every sender, call
`sender->slot_disconnect(this)`, dropping all of its connections to this
receiver. -/
def dropConns (R : Nat) : List Nat → (Nat → List Conn) → Nat → List Conn
  | [], g => g
  | S :: rest, g => dropConns R rest (upd g S (slot_disconnect R (g S)))

/-- The signal-side effect of the loop in the `has_slots` copy
constructor: every sender of the original receiver duplicates its
connections targeting the original onto the new receiver. -/
def dupConns (oldt newt : Nat) : List Nat → (Nat → List Conn) → Nat → List Conn
  | [], g => g
  | S :: rest, g => dupConns oldt newt rest (upd g S (slot_duplicate oldt newt (g S)))

/-- The receiver-side inserts of the `has_slots` copy constructor: the
new receiver's (initially empty) sender set receives every sender of the
original, one `m_senders.insert(sender)` at a time. -/
def insertAll (acc : List Nat) : List Nat → List Nat
  | [] => acc
  | S :: rest => insertAll (insertS acc S) rest

/-- The method `signal::connect`: build a `_connection`, push it at the
back of `m_connected_slots`, then call `pclass->signal_connect(this)`. -/
def connect (S R h : Nat) (st : WState) : WState :=
  { st with
    conns := upd st.conns S (st.conns S ++ [⟨R, h⟩]),
    senders := upd st.senders R (insertS (st.senders R) S) }

/-- The method `_signal::disconnect`: the loop removes the first
connection whose destination is `pclass` and, having found one, calls
`pclass->signal_disconnect(this)` and breaks; when no connection
matches, nothing happens at all. -/
def disconnect (S R : Nat) (st : WState) : WState :=
  if ∃ c ∈ st.conns S, c.dest = R then
    { st with
      conns := upd st.conns S (removeFirst R (st.conns S)),
      senders := upd st.senders R (eraseS (st.senders R) S) }
  else st

/-- The method `_signal::disconnect_all`: unregister this signal at
every destination, then clear the connection list. -/
def sigDisconnectAll (S : Nat) (st : WState) : WState :=
  { st with
    senders := eraseSenders S (st.conns S) st.senders,
    conns := upd st.conns S [] }

/-- The method `has_slots::disconnect_all`: ask every sender to drop all
connections to this receiver, then clear the sender set. -/
def recDisconnectAll (R : Nat) (st : WState) : WState :=
  { st with
    conns := dropConns R (st.senders R) st.conns,
    senders := upd st.senders R [] }

/-- The destructor `_signal::~_signal`: run `disconnect_all`, then the
object is gone. -/
def destroySig (S : Nat) (st : WState) : WState :=
  { sigDisconnectAll S st with sigAlive := eraseS st.sigAlive S }

/-- The destructor `has_slots::~has_slots`: run `disconnect_all`, then
the object is gone. -/
def destroyRec (R : Nat) (st : WState) : WState :=
  { recDisconnectAll R st with recAlive := eraseS st.recAlive R }

/-- Default construction of a fresh `signal`: empty connection list. -/
def newSig (S : Nat) (st : WState) : WState :=
  { st with sigAlive := S :: st.sigAlive, conns := upd st.conns S [] }

/-- Default construction of a fresh `has_slots`: empty sender set. -/
def newRec (R : Nat) (st : WState) : WState :=
  { st with recAlive := R :: st.recAlive, senders := upd st.senders R [] }

/-- The copy constructor `_signal::_signal(const _signal& s)` as
written: its range-for iterates `m_connected_slots` — the brand-new
signal's own, still empty, list (the parameter `s` is used only to
initialise the base class) — so no connection is cloned and no receiver
is told about the copy.  The new signal `S2` is alive and empty. -/
def copySig (S S2 : Nat) (st : WState) : WState :=
  { st with sigAlive := S2 :: st.sigAlive, conns := upd st.conns S2 [] }

/-- The copy constructor `has_slots::has_slots(const has_slots& hs)`:
for every sender of `hs`, call `sender->slot_duplicate(&hs, this)` and
insert the sender into the new receiver's sender set. -/
def copyRec (R R2 : Nat) (st : WState) : WState :=
  { st with
    recAlive := R2 :: st.recAlive,
    conns := dupConns R R2 (st.senders R) st.conns,
    senders := upd st.senders R2 (insertAll [] (st.senders R)) }

/-- The method `signal::emit` as a trace of handler invocations: the
loop reads `m_connected_slots` and invokes each connection in order. -/
def emitTrace (st : WState) (S : Nat) (a : Nat) : List (Nat × Nat × Nat) :=
  emitLoop a (st.conns S)

/-- The method `signal::emit` as a state transformer paired with the
invocations it performs: the connection list is only read, never
written, so the state component is unchanged. -/
def emitRun (st : WState) (S : Nat) (a : Nat) : WState × List (Nat × Nat × Nat) :=
  (st, emitTrace st S a)

/-- The call operator `signal::operator()`: its body is exactly
`emit(args...)`. -/
def opCall (st : WState) (S : Nat) (a : Nat) : WState × List (Nat × Nat × Nat) :=
  emitRun st S a

/-- The empty initial state: no objects constructed yet. -/
def st0 : WState :=
  ⟨[], [], fun _ => [], fun _ => []⟩

/-- One step of the public API on live objects: default and copy
construction, connect, disconnect, both `disconnect_all`s, destruction
and emission.  The callbacks `slot_disconnect` and `slot_duplicate` run
inside receiver teardown and receiver copy, which is where the library
invokes them. -/
inductive Step : WState → WState → Prop where
  | cNewSig (st : WState) (S : Nat) : S ∉ st.sigAlive → Step st (newSig S st)
  | cNewRec (st : WState) (R : Nat) : R ∉ st.recAlive → Step st (newRec R st)
  | cConnect (st : WState) (S R h : Nat) : S ∈ st.sigAlive → R ∈ st.recAlive →
      Step st (connect S R h st)
  | cDisconnect (st : WState) (S R : Nat) : S ∈ st.sigAlive → R ∈ st.recAlive →
      Step st (disconnect S R st)
  | cSigDisconnectAll (st : WState) (S : Nat) : S ∈ st.sigAlive →
      Step st (sigDisconnectAll S st)
  | cRecDisconnectAll (st : WState) (R : Nat) : R ∈ st.recAlive →
      Step st (recDisconnectAll R st)
  | cDestroySig (st : WState) (S : Nat) : S ∈ st.sigAlive → Step st (destroySig S st)
  | cDestroyRec (st : WState) (R : Nat) : R ∈ st.recAlive → Step st (destroyRec R st)
  | cCopySig (st : WState) (S S2 : Nat) : S ∈ st.sigAlive → S2 ∉ st.sigAlive →
      Step st (copySig S S2 st)
  | cCopyRec (st : WState) (R R2 : Nat) : R ∈ st.recAlive → R2 ∉ st.recAlive →
      Step st (copyRec R R2 st)
  | cEmit (st : WState) (S a : Nat) : S ∈ st.sigAlive → Step st (emitRun st S a).1

/-- States reachable from the empty program by API steps. -/
inductive Reachable : WState → Prop where
  | init : Reachable st0
  | step {st st' : WState} : Reachable st → Step st st' → Reachable st'

/-- Auxiliary invariant carried through the reachability induction:
sender sets are duplicate-free, destroyed receivers have no sender set,
sender sets only name live signals, and every signal in a live
receiver's sender set holds at least one connection to that receiver. -/
structure WInv (st : WState) : Prop where
  nodupSenders : ∀ R, (st.senders R).Nodup
  deadRec : ∀ R, R ∉ st.recAlive → st.senders R = []
  senderAlive : ∀ R S, S ∈ st.senders R → S ∈ st.sigAlive
  dir1 : ∀ R ∈ st.recAlive, ∀ S ∈ st.senders R, ∃ c ∈ st.conns S, c.dest = R

/-- The bidirectional consistency property claimed for the system: a
signal in a live receiver's sender set holds a connection to it, and a
live signal's connection to a live receiver is registered in that
receiver's sender set. -/
def BidirConsistent (st : WState) : Prop :=
  (∀ R ∈ st.recAlive, ∀ S ∈ st.senders R, ∃ c ∈ st.conns S, c.dest = R) ∧
  (∀ S ∈ st.sigAlive, ∀ c ∈ st.conns S, c.dest ∈ st.recAlive → S ∈ st.senders c.dest)

/-- Scenario state: signal 0 and receiver 0 constructed, then
`connect(signal 0, receiver 0, handler 1)`. -/
def stA : WState := connect 0 0 1 (newRec 0 (newSig 0 st0))

/-- Scenario state: `stA` followed by a second
`connect(signal 0, receiver 0, handler 2)`. -/
def stB : WState := connect 0 0 2 stA

/-- Scenario state: `stB` followed by `disconnect(signal 0, receiver 0)`
— one of the two connections remains, yet the receiver's sender set no
longer names the signal. -/
def stBad : WState := disconnect 0 0 stB

/-- Scenario state: copy-constructing signal 1 from signal 0 in `stA`. -/
def stC1 : WState := copySig 0 1 stA

theorem upd_same {α : Type} (f : Nat → α) (i : Nat) (v : α) : upd f i v i = v := by
  simp [upd]

theorem upd_ne {α : Type} {f : Nat → α} {i j : Nat} {v : α} (h : j ≠ i) :
    upd f i v j = f j := by
  simp [upd, h]

theorem upd_upd {α : Type} (f : Nat → α) (i : Nat) (v w : α) :
    upd (upd f i v) i w = upd f i w := by
  funext j
  by_cases h : j = i <;> simp [upd, h]

theorem mem_insertS {l : List Nat} {S T : Nat} : T ∈ insertS l S ↔ T ∈ l ∨ T = S := by
  unfold insertS
  split_ifs with h
  · constructor
    · exact Or.inl
    · rintro (hT | rfl)
      · exact hT
      · exact h
  · simp

theorem nodup_insertS {l : List Nat} {S : Nat} (hl : l.Nodup) : (insertS l S).Nodup := by
  unfold insertS
  split_ifs with h
  · exact hl
  · rw [List.nodup_append]
    refine ⟨hl, List.nodup_singleton S, ?_⟩
    intro x hx hxS
    rw [List.mem_singleton] at hxS
    exact h (hxS ▸ hx)

theorem mem_eraseS_sub {S T : Nat} : ∀ {l : List Nat}, T ∈ eraseS l S → T ∈ l := by
  intro l
  induction l with
  | nil => intro h; simpa [eraseS] using h
  | cons x rest ih =>
    intro h
    by_cases hx : x = S
    · simp only [eraseS, if_pos hx] at h
      exact List.mem_cons_of_mem _ h
    · simp only [eraseS, if_neg hx, List.mem_cons] at h
      rcases h with h | h
      · exact h ▸ List.mem_cons_self x rest
      · exact List.mem_cons_of_mem _ (ih h)

theorem mem_eraseS_of_ne {S T : Nat} (hne : T ≠ S) :
    ∀ {l : List Nat}, T ∈ eraseS l S ↔ T ∈ l := by
  intro l
  induction l with
  | nil => simp [eraseS]
  | cons x rest ih =>
    by_cases hx : x = S
    · subst hx
      simp only [eraseS, if_pos rfl, List.mem_cons]
      constructor
      · exact Or.inr
      · rintro (h | h)
        · exact absurd h hne
        · exact h
    · simp only [eraseS, if_neg hx, List.mem_cons, ih]

theorem nodup_eraseS {S : Nat} : ∀ {l : List Nat}, l.Nodup → (eraseS l S).Nodup := by
  intro l
  induction l with
  | nil => intro _; simp [eraseS]
  | cons x rest ih =>
    intro h
    rw [List.nodup_cons] at h
    by_cases hx : x = S
    · simpa [eraseS, hx] using h.2
    · rw [eraseS, if_neg hx, List.nodup_cons]
      exact ⟨fun hmem => h.1 (mem_eraseS_sub hmem), ih h.2⟩

theorem not_mem_eraseS {S : Nat} : ∀ {l : List Nat}, l.Nodup → S ∉ eraseS l S := by
  intro l
  induction l with
  | nil => intro _; simp [eraseS]
  | cons x rest ih =>
    intro h
    rw [List.nodup_cons] at h
    by_cases hx : x = S
    · rw [eraseS, if_pos hx]
      exact hx ▸ h.1
    · rw [eraseS, if_neg hx]
      intro hmem
      rcases List.mem_cons.1 hmem with hS | hS
      · exact hx hS.symm
      · exact ih h.2 hS

theorem mem_removeFirst_of_ne {R : Nat} {c : Conn} (hne : c.dest ≠ R) :
    ∀ {l : List Conn}, c ∈ l → c ∈ removeFirst R l := by
  intro l
  induction l with
  | nil => intro h; simpa using h
  | cons d rest ih =>
    intro h
    rcases List.mem_cons.1 h with h | h
    · subst h
      rw [removeFirst, if_neg hne]
      exact List.mem_cons_self _ _
    · by_cases hd : d.dest = R
      · rw [removeFirst, if_pos hd]; exact h
      · rw [removeFirst, if_neg hd]; exact List.mem_cons_of_mem _ (ih h)

theorem removeFirst_prefix {R : Nat} {c : Conn} (hc : c.dest = R) :
    ∀ (l1 l2 : List Conn), (∀ c' ∈ l1, c'.dest ≠ R) →
    removeFirst R (l1 ++ c :: l2) = l1 ++ l2 := by
  intro l1
  induction l1 with
  | nil => intro l2 _; simp [removeFirst, hc]
  | cons d rest ih =>
    intro l2 h1
    have hd : d.dest ≠ R := h1 d (List.mem_cons_self _ _)
    simp only [List.cons_append, removeFirst, if_neg hd, List.append_eq]
    rw [ih l2 fun c' hc' => h1 c' (List.mem_cons_of_mem _ hc')]

theorem mem_slot_disconnect {R : Nat} {c : Conn} :
    ∀ {l : List Conn}, c ∈ slot_disconnect R l ↔ c ∈ l ∧ c.dest ≠ R := by
  intro l
  induction l with
  | nil => simp [slot_disconnect]
  | cons d rest ih =>
    by_cases hd : d.dest = R
    · rw [slot_disconnect, if_pos hd, ih]
      constructor
      · exact fun ⟨h1, h2⟩ => ⟨List.mem_cons_of_mem _ h1, h2⟩
      · rintro ⟨h1, h2⟩
        rcases List.mem_cons.1 h1 with h | h
        · exact absurd (h ▸ hd) h2
        · exact ⟨h, h2⟩
    · rw [slot_disconnect, if_neg hd]
      constructor
      · intro hmem
        rcases List.mem_cons.1 hmem with h | h
        · exact ⟨h ▸ List.mem_cons_self _ _, h ▸ hd⟩
        · exact ⟨List.mem_cons_of_mem _ (ih.1 h).1, (ih.1 h).2⟩
      · rintro ⟨h1, h2⟩
        rcases List.mem_cons.1 h1 with h | h
        · exact h ▸ List.mem_cons_self _ _
        · exact List.mem_cons_of_mem _ (ih.2 ⟨h, h2⟩)

theorem dupsOf_mem {oldt newt : Nat} {c : Conn} (hd : c.dest = oldt) :
    ∀ {l : List Conn}, c ∈ l → (⟨newt, c.handler⟩ : Conn) ∈ dupsOf oldt newt l := by
  intro l
  induction l with
  | nil => intro h; simpa using h
  | cons d rest ih =>
    intro h
    rcases List.mem_cons.1 h with h | h
    · subst h
      rw [dupsOf, if_pos hd]
      exact List.mem_cons_self _ _
    · by_cases hdd : d.dest = oldt
      · rw [dupsOf, if_pos hdd]; exact List.mem_cons_of_mem _ (ih h)
      · rw [dupsOf, if_neg hdd]; exact ih h

theorem length_dupsOf (oldt newt : Nat) :
    ∀ l : List Conn, (dupsOf oldt newt l).length = matchCount oldt l := by
  intro l
  induction l with
  | nil => simp [dupsOf, matchCount]
  | cons d rest ih =>
    by_cases hd : d.dest = oldt
    · simp [dupsOf, matchCount, hd, ih, Nat.add_comm]
    · simp [dupsOf, matchCount, hd, ih]

theorem slotDupFuel_nonmatch {oldt newt : Nat} :
    ∀ (extra visited : List Conn), (∀ c ∈ extra, c.dest ≠ oldt) →
    slotDupFuel oldt newt extra.length visited extra = some (visited ++ extra) := by
  intro extra
  induction extra with
  | nil => intro visited _; simp [slotDupFuel]
  | cons c rest ih =>
    intro visited h
    have hc : c.dest ≠ oldt := h c (List.mem_cons_self _ _)
    rw [List.length_cons, slotDupFuel, if_neg hc,
      ih (visited ++ [c]) fun c' hc' => h c' (List.mem_cons_of_mem _ hc')]
    simp

theorem slotDupFuel_main {oldt newt : Nat} (hne : newt ≠ oldt) :
    ∀ (pending extra visited : List Conn), (∀ c ∈ extra, c.dest ≠ oldt) →
    slotDupFuel oldt newt (pending.length + matchCount oldt pending + extra.length)
        visited (pending ++ extra)
      = some (visited ++ pending ++ extra ++ dupsOf oldt newt pending) := by
  intro pending
  induction pending with
  | nil =>
    intro extra visited hextra
    simpa [matchCount, dupsOf] using slotDupFuel_nonmatch extra visited hextra
  | cons c rest ih =>
    intro extra visited hextra
    by_cases hc : c.dest = oldt
    · have hfuel : (c :: rest).length + matchCount oldt (c :: rest) + extra.length
          = (rest.length + matchCount oldt rest + (extra ++ [(⟨newt, c.handler⟩ : Conn)]).length) + 1 := by
        simp [matchCount, if_pos hc]
        omega
      rw [hfuel, List.cons_append, slotDupFuel, if_pos hc]
      have hstep : (rest ++ extra) ++ [(⟨newt, c.handler⟩ : Conn)]
          = rest ++ (extra ++ [(⟨newt, c.handler⟩ : Conn)]) := by
        simp
      have hex : ∀ c' ∈ extra ++ [(⟨newt, c.handler⟩ : Conn)], c'.dest ≠ oldt := by
        intro c' hc'
        rcases List.mem_append.1 hc' with h | h
        · exact hextra c' h
        · rw [List.mem_singleton] at h
          subst h
          exact hne
      rw [hstep, ih (extra ++ [(⟨newt, c.handler⟩ : Conn)]) (visited ++ [c]) hex]
      rw [dupsOf, if_pos hc]
      simp
    · have hfuel : (c :: rest).length + matchCount oldt (c :: rest) + extra.length
          = (rest.length + matchCount oldt rest + extra.length) + 1 := by
        simp [matchCount, if_neg hc]
        omega
      rw [hfuel, List.cons_append, slotDupFuel, if_neg hc, ih extra (visited ++ [c]) hextra]
      rw [dupsOf, if_neg hc]
      simp

theorem slot_duplicate_eq {oldt newt : Nat} (hne : oldt ≠ newt) (l : List Conn) :
    slot_duplicate oldt newt l = l ++ dupsOf oldt newt l := by
  have h := slotDupFuel_main (Ne.symm hne) l [] []
  simp only [List.append_nil, List.nil_append, List.length_nil, Nat.add_zero] at h
  rw [slot_duplicate, h fun c hc => absurd hc (List.not_mem_nil c)]
  rfl

theorem emitLoop_eq_map (a : Nat) :
    ∀ l : List Conn, emitLoop a l = l.map fun c => (c.dest, c.handler, a) := by
  intro l
  induction l with
  | nil => simp [emitLoop]
  | cons c rest ih => simp [emitLoop, ih]

theorem eraseSenders_sub {S : Nat} :
    ∀ (l : List Conn) (f : Nat → List Nat) (R T : Nat),
    T ∈ eraseSenders S l f R → T ∈ f R := by
  intro l
  induction l with
  | nil => intro f R T h; exact h
  | cons c rest ih =>
    intro f R T h
    rw [eraseSenders] at h
    have h' := ih _ R T h
    by_cases hR : R = c.dest
    · subst hR
      rw [upd_same] at h'
      exact mem_eraseS_sub h'
    · rwa [upd_ne hR] at h'

theorem eraseSenders_mem_of_ne {S T : Nat} (hne : T ≠ S) :
    ∀ (l : List Conn) (f : Nat → List Nat) (R : Nat),
    T ∈ eraseSenders S l f R ↔ T ∈ f R := by
  intro l
  induction l with
  | nil => intro f R; exact Iff.rfl
  | cons c rest ih =>
    intro f R
    rw [eraseSenders, ih]
    by_cases hR : R = c.dest
    · subst hR
      rw [upd_same, mem_eraseS_of_ne hne]
    · rw [upd_ne hR]

theorem eraseSenders_nodup {S : Nat} :
    ∀ (l : List Conn) (f : Nat → List Nat),
    (∀ R, (f R).Nodup) → ∀ R, (eraseSenders S l f R).Nodup := by
  intro l
  induction l with
  | nil => intro f h R; exact h R
  | cons c rest ih =>
    intro f h R
    rw [eraseSenders]
    refine ih _ ?_ R
    intro R'
    by_cases hR : R' = c.dest
    · subst hR
      rw [upd_same]
      exact nodup_eraseS (h _)
    · rw [upd_ne hR]
      exact h R'

theorem eraseSenders_not_mem {S : Nat} :
    ∀ (l : List Conn) (f : Nat → List Nat) (R : Nat),
    (∀ R', (f R').Nodup) → (S ∉ f R ∨ ∃ c ∈ l, c.dest = R) →
    S ∉ eraseSenders S l f R := by
  intro l
  induction l with
  | nil =>
    intro f R _ hcase
    rcases hcase with h | ⟨c, hc, _⟩
    · exact h
    · exact absurd hc (List.not_mem_nil c)
  | cons c rest ih =>
    intro f R hnd hcase
    have hnd' : ∀ R', ((upd f c.dest (eraseS (f c.dest) S)) R').Nodup := by
      intro R'
      by_cases hR : R' = c.dest
      · subst hR; rw [upd_same]; exact nodup_eraseS (hnd _)
      · rw [upd_ne hR]; exact hnd R'
    rw [eraseSenders]
    refine ih _ R hnd' ?_
    rcases hcase with h | ⟨c', hc', hd⟩
    · left
      by_cases hR : R = c.dest
      · subst hR
        rw [upd_same]
        exact fun hmem => h (mem_eraseS_sub hmem)
      · rwa [upd_ne hR]
    · rcases List.mem_cons.1 hc' with h | h
      · left
        subst h
        rw [← hd, upd_same]
        exact not_mem_eraseS (hnd _)
      · right
        exact ⟨c', h, hd⟩

theorem dropConns_sub {R : Nat} :
    ∀ (lst : List Nat) (g : Nat → List Conn) (S : Nat) (c : Conn),
    c ∈ dropConns R lst g S → c ∈ g S := by
  intro lst
  induction lst with
  | nil => intro g S c h; exact h
  | cons T rest ih =>
    intro g S c h
    rw [dropConns] at h
    have h' := ih _ S c h
    by_cases hS : S = T
    · subst hS
      rw [upd_same] at h'
      exact (mem_slot_disconnect.1 h').1
    · rwa [upd_ne hS] at h'

theorem dropConns_mem_of_ne {R : Nat} {c : Conn} (hne : c.dest ≠ R) :
    ∀ (lst : List Nat) (g : Nat → List Conn) (S : Nat),
    c ∈ g S → c ∈ dropConns R lst g S := by
  intro lst
  induction lst with
  | nil => intro g S h; exact h
  | cons T rest ih =>
    intro g S h
    rw [dropConns]
    refine ih _ S ?_
    by_cases hS : S = T
    · subst hS
      rw [upd_same]
      exact mem_slot_disconnect.2 ⟨h, hne⟩
    · rwa [upd_ne hS]

theorem dropConns_no_target {R : Nat} :
    ∀ (lst : List Nat) (g : Nat → List Conn) (S : Nat),
    S ∈ lst → ∀ c ∈ dropConns R lst g S, c.dest ≠ R := by
  intro lst
  induction lst with
  | nil => intro g S h; exact absurd h (List.not_mem_nil S)
  | cons T rest ih =>
    intro g S hmem c hc
    rw [dropConns] at hc
    by_cases hS : S = T
    · subst hS
      have h' := dropConns_sub rest _ S c hc
      rw [upd_same] at h'
      exact (mem_slot_disconnect.1 h').2
    · rcases List.mem_cons.1 hmem with h | h
      · exact absurd h hS
      · exact ih _ S h c hc

theorem dropConns_untouched {R : Nat} :
    ∀ (lst : List Nat) (g : Nat → List Conn) (S : Nat),
    S ∉ lst → dropConns R lst g S = g S := by
  intro lst
  induction lst with
  | nil => intro g S _; rfl
  | cons T rest ih =>
    intro g S h
    have hS : S ≠ T := fun e => h (e ▸ List.mem_cons_self _ _)
    rw [dropConns, ih _ S fun hmem => h (List.mem_cons_of_mem _ hmem), upd_ne hS]

theorem dupConns_untouched {oldt newt : Nat} :
    ∀ (lst : List Nat) (g : Nat → List Conn) (S : Nat),
    S ∉ lst → dupConns oldt newt lst g S = g S := by
  intro lst
  induction lst with
  | nil => intro g S _; rfl
  | cons T rest ih =>
    intro g S h
    have hS : S ≠ T := fun e => h (e ▸ List.mem_cons_self _ _)
    rw [dupConns, ih _ S fun hmem => h (List.mem_cons_of_mem _ hmem), upd_ne hS]

theorem dupConns_eq_of_mem {oldt newt : Nat} :
    ∀ (lst : List Nat) (g : Nat → List Conn) (S : Nat),
    lst.Nodup → S ∈ lst →
    dupConns oldt newt lst g S = slot_duplicate oldt newt (g S) := by
  intro lst
  induction lst with
  | nil => intro g S _ h; exact absurd h (List.not_mem_nil S)
  | cons T rest ih =>
    intro g S hnd hmem
    rw [List.nodup_cons] at hnd
    by_cases hS : S = T
    · subst hS
      rw [dupConns, dupConns_untouched rest _ S hnd.1, upd_same]
    · rcases List.mem_cons.1 hmem with h | h
      · exact absurd h hS
      · rw [dupConns, ih _ S hnd.2 h, upd_ne hS]

theorem mem_insertAll : ∀ (l acc : List Nat) (T : Nat),
    T ∈ insertAll acc l ↔ T ∈ acc ∨ T ∈ l := by
  intro l
  induction l with
  | nil => intro acc T; simp [insertAll]
  | cons S rest ih =>
    intro acc T
    rw [insertAll, ih, mem_insertS, List.mem_cons]
    tauto

theorem nodup_insertAll : ∀ (l acc : List Nat), acc.Nodup → (insertAll acc l).Nodup := by
  intro l
  induction l with
  | nil => intro acc h; exact h
  | cons S rest ih =>
    intro acc h
    rw [insertAll]
    exact ih _ (nodup_insertS h)

@[simp] theorem connect_sigAlive (S R h : Nat) (st : WState) :
    (connect S R h st).sigAlive = st.sigAlive := rfl

@[simp] theorem connect_recAlive (S R h : Nat) (st : WState) :
    (connect S R h st).recAlive = st.recAlive := rfl

@[simp] theorem connect_conns (S R h : Nat) (st : WState) :
    (connect S R h st).conns = upd st.conns S (st.conns S ++ [⟨R, h⟩]) := rfl

@[simp] theorem connect_senders (S R h : Nat) (st : WState) :
    (connect S R h st).senders = upd st.senders R (insertS (st.senders R) S) := rfl

theorem disconnect_of_match {st : WState} {S R : Nat} (h : ∃ c ∈ st.conns S, c.dest = R) :
    disconnect S R st =
      { st with
        conns := upd st.conns S (removeFirst R (st.conns S)),
        senders := upd st.senders R (eraseS (st.senders R) S) } := by
  rw [disconnect, if_pos h]

theorem disconnect_of_no_match {st : WState} {S R : Nat}
    (h : ¬ ∃ c ∈ st.conns S, c.dest = R) : disconnect S R st = st := by
  rw [disconnect, if_neg h]

@[simp] theorem sigDisconnectAll_sigAlive (S : Nat) (st : WState) :
    (sigDisconnectAll S st).sigAlive = st.sigAlive := rfl

@[simp] theorem sigDisconnectAll_recAlive (S : Nat) (st : WState) :
    (sigDisconnectAll S st).recAlive = st.recAlive := rfl

@[simp] theorem sigDisconnectAll_conns (S : Nat) (st : WState) :
    (sigDisconnectAll S st).conns = upd st.conns S [] := rfl

@[simp] theorem sigDisconnectAll_senders (S : Nat) (st : WState) :
    (sigDisconnectAll S st).senders = eraseSenders S (st.conns S) st.senders := rfl

@[simp] theorem recDisconnectAll_sigAlive (R : Nat) (st : WState) :
    (recDisconnectAll R st).sigAlive = st.sigAlive := rfl

@[simp] theorem recDisconnectAll_recAlive (R : Nat) (st : WState) :
    (recDisconnectAll R st).recAlive = st.recAlive := rfl

@[simp] theorem recDisconnectAll_conns (R : Nat) (st : WState) :
    (recDisconnectAll R st).conns = dropConns R (st.senders R) st.conns := rfl

@[simp] theorem recDisconnectAll_senders (R : Nat) (st : WState) :
    (recDisconnectAll R st).senders = upd st.senders R [] := rfl

@[simp] theorem destroySig_sigAlive (S : Nat) (st : WState) :
    (destroySig S st).sigAlive = eraseS st.sigAlive S := rfl

@[simp] theorem destroySig_recAlive (S : Nat) (st : WState) :
    (destroySig S st).recAlive = st.recAlive := rfl

@[simp] theorem destroySig_conns (S : Nat) (st : WState) :
    (destroySig S st).conns = upd st.conns S [] := rfl

@[simp] theorem destroySig_senders (S : Nat) (st : WState) :
    (destroySig S st).senders = eraseSenders S (st.conns S) st.senders := rfl

@[simp] theorem destroyRec_sigAlive (R : Nat) (st : WState) :
    (destroyRec R st).sigAlive = st.sigAlive := rfl

@[simp] theorem destroyRec_recAlive (R : Nat) (st : WState) :
    (destroyRec R st).recAlive = eraseS st.recAlive R := rfl

@[simp] theorem destroyRec_conns (R : Nat) (st : WState) :
    (destroyRec R st).conns = dropConns R (st.senders R) st.conns := rfl

@[simp] theorem destroyRec_senders (R : Nat) (st : WState) :
    (destroyRec R st).senders = upd st.senders R [] := rfl

@[simp] theorem newSig_sigAlive (S : Nat) (st : WState) :
    (newSig S st).sigAlive = S :: st.sigAlive := rfl

@[simp] theorem newSig_recAlive (S : Nat) (st : WState) :
    (newSig S st).recAlive = st.recAlive := rfl

@[simp] theorem newSig_conns (S : Nat) (st : WState) :
    (newSig S st).conns = upd st.conns S [] := rfl

@[simp] theorem newSig_senders (S : Nat) (st : WState) :
    (newSig S st).senders = st.senders := rfl

@[simp] theorem newRec_sigAlive (R : Nat) (st : WState) :
    (newRec R st).sigAlive = st.sigAlive := rfl

@[simp] theorem newRec_recAlive (R : Nat) (st : WState) :
    (newRec R st).recAlive = R :: st.recAlive := rfl

@[simp] theorem newRec_conns (R : Nat) (st : WState) :
    (newRec R st).conns = st.conns := rfl

@[simp] theorem newRec_senders (R : Nat) (st : WState) :
    (newRec R st).senders = upd st.senders R [] := rfl

theorem copySig_eq_newSig (S S2 : Nat) (st : WState) : copySig S S2 st = newSig S2 st := rfl

@[simp] theorem copyRec_sigAlive (R R2 : Nat) (st : WState) :
    (copyRec R R2 st).sigAlive = st.sigAlive := rfl

@[simp] theorem copyRec_recAlive (R R2 : Nat) (st : WState) :
    (copyRec R R2 st).recAlive = R2 :: st.recAlive := rfl

@[simp] theorem copyRec_conns (R R2 : Nat) (st : WState) :
    (copyRec R R2 st).conns = dupConns R R2 (st.senders R) st.conns := rfl

@[simp] theorem copyRec_senders (R R2 : Nat) (st : WState) :
    (copyRec R R2 st).senders = upd st.senders R2 (insertAll [] (st.senders R)) := rfl

theorem mem_conns_connect {st : WState} {S R h T : Nat} {c : Conn} (hc : c ∈ st.conns T) :
    c ∈ (connect S R h st).conns T := by
  rw [connect_conns]
  by_cases hT : T = S
  · subst hT
    rw [upd_same]
    exact List.mem_append_left _ hc
  · rwa [upd_ne hT]

theorem inv_newSig {st : WState} {S : Nat} (hi : WInv st) (hS : S ∉ st.sigAlive) :
    WInv (newSig S st) := by
  refine ⟨hi.nodupSenders, hi.deadRec, ?_, ?_⟩
  · intro R T hT
    exact List.mem_cons_of_mem _ (hi.senderAlive R T hT)
  · intro R hR T hT
    rw [newSig_senders] at hT
    have hTS : T ≠ S := fun e => hS (e ▸ hi.senderAlive R T hT)
    rw [newSig_conns, upd_ne hTS]
    exact hi.dir1 R hR T hT

theorem inv_newRec {st : WState} {R : Nat} (hi : WInv st) (hR : R ∉ st.recAlive) :
    WInv (newRec R st) := by
  refine ⟨?_, ?_, ?_, ?_⟩
  · intro R'
    rw [newRec_senders]
    by_cases hR' : R' = R
    · subst hR'; rw [upd_same]; exact List.nodup_nil
    · rw [upd_ne hR']; exact hi.nodupSenders R'
  · intro R' hR'
    rw [newRec_recAlive, List.mem_cons, not_or] at hR'
    rw [newRec_senders, upd_ne hR'.1]
    exact hi.deadRec R' hR'.2
  · intro R' T hT
    rw [newRec_senders] at hT
    rw [newRec_sigAlive]
    by_cases hR' : R' = R
    · subst hR'; rw [upd_same] at hT; exact absurd hT (List.not_mem_nil T)
    · rw [upd_ne hR'] at hT; exact hi.senderAlive R' T hT
  · intro R' hR' T hT
    rw [newRec_senders] at hT
    rw [newRec_conns]
    by_cases hR'R : R' = R
    · subst hR'R; rw [upd_same] at hT; exact absurd hT (List.not_mem_nil T)
    · rw [upd_ne hR'R] at hT
      rcases List.mem_cons.1 hR' with h | h
      · exact absurd h hR'R
      · exact hi.dir1 R' h T hT

theorem inv_connect {st : WState} {S R h : Nat} (hi : WInv st)
    (hS : S ∈ st.sigAlive) (hR : R ∈ st.recAlive) : WInv (connect S R h st) := by
  refine ⟨?_, ?_, ?_, ?_⟩
  · intro R'
    rw [connect_senders]
    by_cases hR' : R' = R
    · subst hR'; rw [upd_same]; exact nodup_insertS (hi.nodupSenders R')
    · rw [upd_ne hR']; exact hi.nodupSenders R'
  · intro R' hR'
    rw [connect_recAlive] at hR'
    have hne : R' ≠ R := fun e => hR' (e ▸ hR)
    rw [connect_senders, upd_ne hne]
    exact hi.deadRec R' hR'
  · intro R' T hT
    rw [connect_senders] at hT
    rw [connect_sigAlive]
    by_cases hR' : R' = R
    · subst hR'
      rw [upd_same] at hT
      rcases mem_insertS.1 hT with hT | hT
      · exact hi.senderAlive R' T hT
      · exact hT ▸ hS
    · rw [upd_ne hR'] at hT
      exact hi.senderAlive R' T hT
  · intro R' hR' T hT
    rw [connect_recAlive] at hR'
    rw [connect_senders] at hT
    by_cases hR'R : R' = R
    · subst hR'R
      rw [upd_same] at hT
      rcases mem_insertS.1 hT with hT | hT
      · obtain ⟨c, hc, hd⟩ := hi.dir1 R' hR' T hT
        exact ⟨c, mem_conns_connect hc, hd⟩
      · subst hT
        refine ⟨⟨R', h⟩, ?_, rfl⟩
        rw [connect_conns, upd_same]
        exact List.mem_append_right _ (List.mem_singleton.2 rfl)
    · rw [upd_ne hR'R] at hT
      obtain ⟨c, hc, hd⟩ := hi.dir1 R' hR' T hT
      exact ⟨c, mem_conns_connect hc, hd⟩

theorem inv_disconnect {st : WState} {S R : Nat} (hi : WInv st) (hR : R ∈ st.recAlive) :
    WInv (disconnect S R st) := by
  by_cases hex : ∃ c ∈ st.conns S, c.dest = R
  · rw [disconnect_of_match hex]
    refine ⟨?_, ?_, ?_, ?_⟩
    · intro R'
      show ((upd st.senders R (eraseS (st.senders R) S)) R').Nodup
      by_cases hR' : R' = R
      · subst hR'; rw [upd_same]; exact nodup_eraseS (hi.nodupSenders R')
      · rw [upd_ne hR']; exact hi.nodupSenders R'
    · intro R' hR'
      have hne : R' ≠ R := fun e => hR' (e ▸ hR)
      show (upd st.senders R (eraseS (st.senders R) S)) R' = []
      rw [upd_ne hne]
      exact hi.deadRec R' hR'
    · intro R' T hT
      have hT' : T ∈ (upd st.senders R (eraseS (st.senders R) S)) R' := hT
      show T ∈ st.sigAlive
      by_cases hR' : R' = R
      · subst hR'
        rw [upd_same] at hT'
        exact hi.senderAlive R' T (mem_eraseS_sub hT')
      · rw [upd_ne hR'] at hT'
        exact hi.senderAlive R' T hT'
    · intro R' hR' T hT
      have hR'' : R' ∈ st.recAlive := hR'
      have hT' : T ∈ (upd st.senders R (eraseS (st.senders R) S)) R' := hT
      show ∃ c ∈ (upd st.conns S (removeFirst R (st.conns S))) T, c.dest = R'
      by_cases hR'R : R' = R
      · subst hR'R
        rw [upd_same] at hT'
        have hTS : T ≠ S := by
          intro e
          subst e
          exact not_mem_eraseS (hi.nodupSenders R') hT'
        obtain ⟨c, hc, hd⟩ := hi.dir1 R' hR'' T (mem_eraseS_sub hT')
        rw [upd_ne hTS]
        exact ⟨c, hc, hd⟩
      · rw [upd_ne hR'R] at hT'
        obtain ⟨c, hc, hd⟩ := hi.dir1 R' hR'' T hT'
        by_cases hTS : T = S
        · subst hTS
          rw [upd_same]
          have hcd : c.dest ≠ R := by rw [hd]; exact hR'R
          exact ⟨c, mem_removeFirst_of_ne hcd hc, hd⟩
        · rw [upd_ne hTS]
          exact ⟨c, hc, hd⟩
  · rw [disconnect_of_no_match hex]
    exact hi

theorem sigDisconnectAll_not_sender {st : WState} {S : Nat} (hi : WInv st) (R : Nat) :
    S ∉ (sigDisconnectAll S st).senders R := by
  rw [sigDisconnectAll_senders]
  refine eraseSenders_not_mem _ _ _ hi.nodupSenders ?_
  by_cases hR : R ∈ st.recAlive
  · by_cases hS : S ∈ st.senders R
    · exact Or.inr (hi.dir1 R hR S hS)
    · exact Or.inl hS
  · left
    rw [hi.deadRec R hR]
    exact List.not_mem_nil S

theorem inv_sigDisconnectAll {st : WState} {S : Nat} (hi : WInv st) :
    WInv (sigDisconnectAll S st) := by
  refine ⟨?_, ?_, ?_, ?_⟩
  · intro R
    rw [sigDisconnectAll_senders]
    exact eraseSenders_nodup _ _ hi.nodupSenders R
  · intro R hR
    rw [sigDisconnectAll_recAlive] at hR
    rw [sigDisconnectAll_senders]
    refine List.eq_nil_iff_forall_not_mem.2 fun T hT => ?_
    have := eraseSenders_sub _ _ _ _ hT
    rw [hi.deadRec R hR] at this
    exact List.not_mem_nil T this
  · intro R T hT
    rw [sigDisconnectAll_senders] at hT
    rw [sigDisconnectAll_sigAlive]
    exact hi.senderAlive R T (eraseSenders_sub _ _ _ _ hT)
  · intro R hR T hT
    rw [sigDisconnectAll_recAlive] at hR
    have hTS : T ≠ S := by
      intro e
      subst e
      exact sigDisconnectAll_not_sender hi R hT
    rw [sigDisconnectAll_senders, eraseSenders_mem_of_ne hTS] at hT
    rw [sigDisconnectAll_conns, upd_ne hTS]
    exact hi.dir1 R hR T hT

theorem inv_destroySig {st : WState} {S : Nat} (hi : WInv st) : WInv (destroySig S st) := by
  have hi' : WInv (sigDisconnectAll S st) := inv_sigDisconnectAll hi
  refine ⟨?_, ?_, ?_, ?_⟩
  · intro R
    rw [destroySig_senders]
    exact eraseSenders_nodup _ _ hi.nodupSenders R
  · intro R hR
    rw [destroySig_recAlive] at hR
    exact hi'.deadRec R hR
  · intro R T hT
    rw [destroySig_senders] at hT
    have hTS : T ≠ S := by
      intro e
      subst e
      exact sigDisconnectAll_not_sender hi R hT
    rw [destroySig_sigAlive, mem_eraseS_of_ne hTS]
    exact hi.senderAlive R T (eraseSenders_sub _ _ _ _ hT)
  · intro R hR T hT
    rw [destroySig_recAlive] at hR
    exact hi'.dir1 R hR T hT

theorem inv_recDisconnectAll {st : WState} {R : Nat} (hi : WInv st) :
    WInv (recDisconnectAll R st) := by
  refine ⟨?_, ?_, ?_, ?_⟩
  · intro R'
    rw [recDisconnectAll_senders]
    by_cases hR' : R' = R
    · subst hR'; rw [upd_same]; exact List.nodup_nil
    · rw [upd_ne hR']; exact hi.nodupSenders R'
  · intro R' hR'
    rw [recDisconnectAll_recAlive] at hR'
    rw [recDisconnectAll_senders]
    by_cases hR'R : R' = R
    · subst hR'R; rw [upd_same]
    · rw [upd_ne hR'R]; exact hi.deadRec R' hR'
  · intro R' T hT
    rw [recDisconnectAll_senders] at hT
    rw [recDisconnectAll_sigAlive]
    by_cases hR' : R' = R
    · subst hR'; rw [upd_same] at hT; exact absurd hT (List.not_mem_nil T)
    · rw [upd_ne hR'] at hT; exact hi.senderAlive R' T hT
  · intro R' hR' T hT
    rw [recDisconnectAll_recAlive] at hR'
    rw [recDisconnectAll_senders] at hT
    rw [recDisconnectAll_conns]
    by_cases hR'R : R' = R
    · subst hR'R; rw [upd_same] at hT; exact absurd hT (List.not_mem_nil T)
    · rw [upd_ne hR'R] at hT
      obtain ⟨c, hc, hd⟩ := hi.dir1 R' hR' T hT
      have hcd : c.dest ≠ R := by rw [hd]; exact hR'R
      exact ⟨c, dropConns_mem_of_ne hcd _ _ _ hc, hd⟩

theorem inv_destroyRec {st : WState} {R : Nat} (hi : WInv st) : WInv (destroyRec R st) := by
  have hi' : WInv (recDisconnectAll R st) := inv_recDisconnectAll hi
  refine ⟨?_, ?_, ?_, ?_⟩
  · intro R'
    exact hi'.nodupSenders R'
  · intro R' hR'
    rw [destroyRec_recAlive] at hR'
    rw [destroyRec_senders]
    by_cases hR'R : R' = R
    · subst hR'R; rw [upd_same]
    · rw [mem_eraseS_of_ne hR'R] at hR'
      rw [upd_ne hR'R]
      exact hi.deadRec R' hR'
  · intro R' T hT
    exact hi'.senderAlive R' T hT
  · intro R' hR' T hT
    rw [destroyRec_recAlive] at hR'
    exact hi'.dir1 R' (mem_eraseS_sub hR') T hT

theorem inv_copyRec {st : WState} {R R2 : Nat} (hi : WInv st)
    (hR : R ∈ st.recAlive) (hR2 : R2 ∉ st.recAlive) : WInv (copyRec R R2 st) := by
  have hRR2 : R ≠ R2 := fun e => hR2 (e ▸ hR)
  refine ⟨?_, ?_, ?_, ?_⟩
  · intro R'
    rw [copyRec_senders]
    by_cases hR' : R' = R2
    · subst hR'; rw [upd_same]; exact nodup_insertAll _ _ List.nodup_nil
    · rw [upd_ne hR']; exact hi.nodupSenders R'
  · intro R' hR'
    rw [copyRec_recAlive, List.mem_cons, not_or] at hR'
    rw [copyRec_senders, upd_ne hR'.1]
    exact hi.deadRec R' hR'.2
  · intro R' T hT
    rw [copyRec_senders] at hT
    rw [copyRec_sigAlive]
    by_cases hR' : R' = R2
    · subst hR'
      rw [upd_same] at hT
      rcases (mem_insertAll _ _ _).1 hT with h | h
      · exact absurd h (List.not_mem_nil T)
      · exact hi.senderAlive R T h
    · rw [upd_ne hR'] at hT
      exact hi.senderAlive R' T hT
  · intro R' hR' T hT
    rw [copyRec_recAlive] at hR'
    rw [copyRec_senders] at hT
    rw [copyRec_conns]
    by_cases hR'2 : R' = R2
    · subst hR'2
      rw [upd_same] at hT
      have hTR : T ∈ st.senders R := by
        rcases (mem_insertAll _ _ _).1 hT with h | h
        · exact absurd h (List.not_mem_nil T)
        · exact h
      obtain ⟨c, hc, hd⟩ := hi.dir1 R hR T hTR
      rw [dupConns_eq_of_mem _ _ _ (hi.nodupSenders R) hTR,
        slot_duplicate_eq hRR2]
      exact ⟨⟨R', c.handler⟩, List.mem_append_right _ (dupsOf_mem hd hc), rfl⟩
    · have hR'mem : R' ∈ st.recAlive := by
        rcases List.mem_cons.1 hR' with h | h
        · exact absurd h hR'2
        · exact h
      rw [upd_ne hR'2] at hT
      obtain ⟨c, hc, hd⟩ := hi.dir1 R' hR'mem T hT
      by_cases hTR : T ∈ st.senders R
      · rw [dupConns_eq_of_mem _ _ _ (hi.nodupSenders R) hTR, slot_duplicate_eq hRR2]
        exact ⟨c, List.mem_append_left _ hc, hd⟩
      · rw [dupConns_untouched _ _ _ hTR]
        exact ⟨c, hc, hd⟩

theorem inv_step {st st' : WState} (hi : WInv st) (h : Step st st') : WInv st' := by
  cases h with
  | cNewSig S hS => exact inv_newSig hi hS
  | cNewRec R hR => exact inv_newRec hi hR
  | cConnect S R h hS hR => exact inv_connect hi hS hR
  | cDisconnect S R hS hR => exact inv_disconnect hi hR
  | cSigDisconnectAll S hS => exact inv_sigDisconnectAll hi
  | cRecDisconnectAll R hR => exact inv_recDisconnectAll hi
  | cDestroySig S hS => exact inv_destroySig hi
  | cDestroyRec R hR => exact inv_destroyRec hi
  | cCopySig S S2 hS hS2 => exact copySig_eq_newSig S S2 st ▸ inv_newSig hi hS2
  | cCopyRec R R2 hR hR2 => exact inv_copyRec hi hR hR2
  | cEmit S a hS => exact hi

theorem reachable_WInv {st : WState} (h : Reachable st) : WInv st := by
  induction h with
  | init =>
    refine ⟨?_, ?_, ?_, ?_⟩
    · intro R; exact List.nodup_nil
    · intro R _; rfl
    · intro R T hT; exact absurd hT (List.not_mem_nil T)
    · intro R hR; exact absurd hR (List.not_mem_nil R)
  | step _ hstep ih => exact inv_step ih hstep

theorem reachable_stA : Reachable stA := by
  have h1 : Reachable (newSig 0 st0) :=
    Reachable.step Reachable.init (Step.cNewSig st0 0 (by decide))
  have h2 : Reachable (newRec 0 (newSig 0 st0)) :=
    Reachable.step h1 (Step.cNewRec _ 0 (by decide))
  exact Reachable.step h2 (Step.cConnect _ 0 0 1 (by decide) (by decide))

theorem reachable_stB : Reachable stB :=
  Reachable.step reachable_stA (Step.cConnect _ 0 0 2 (by decide) (by decide))

theorem reachable_stBad : Reachable stBad :=
  Reachable.step reachable_stB (Step.cDisconnect _ 0 0 (by decide) (by decide))

/-- C1: the signal copy constructor as written copies nothing.  Starting
from `stA`, where signal 0 holds one connection (receiver 0, handler 1),
copy-constructing signal 1 from signal 0 leaves the copy with an empty
connection list, leaves receiver 0 unaware of the copy, and makes an
emit on the copy invoke nothing — contradicting the claim that the copy
clones every connection, registers with every target and fires the
handler on emit. -/
theorem C1_signal_copy_copies_nothing :
    stA.conns 0 = [⟨0, 1⟩] ∧ stC1.conns 1 = [] ∧ (1 : Nat) ∉ stC1.senders 0 ∧
    emitTrace stC1 1 5 = [] :=
  ⟨by decide, by decide, by decide, by decide⟩

/-- C2 counterexample: the state reached by constructing signal 0 and
receiver 0, connecting handlers 1 and 2, and then calling
`disconnect(receiver 0)` is reachable yet violates bidirectional
consistency — the signal still holds a connection targeting the
receiver, while the receiver's sender set no longer names the signal. -/
theorem C2_counterexample : Reachable stBad ∧ ¬ BidirConsistent stBad := by
  refine ⟨reachable_stBad, fun hb => ?_⟩
  have h2 := hb.2 0 (by decide) ⟨0, 2⟩ (by decide) (by decide)
  exact absurd h2 (by decide)

/-- C2 (amended): in every reachable state the forward direction of the
invariant holds — every signal in a live receiver's sender set holds at
least one connection targeting that receiver.  The converse direction
fails, because `disconnect` unregisters the signal from the receiver's
sender set even when further connections to that receiver remain. -/
theorem C2_forward_invariant {st : WState} (h : Reachable st) :
    ∀ R ∈ st.recAlive, ∀ S ∈ st.senders R, ∃ c ∈ st.conns S, c.dest = R :=
  (reachable_WInv h).dir1

/-- C2 witness: the forward invariant instantiated at the concrete
reachable state `stA`, where receiver 0 has signal 0 as a sender. -/
theorem C2_forward_invariant_witness : ∃ c ∈ stA.conns 0, c.dest = 0 :=
  C2_forward_invariant reachable_stA 0 (by decide) 0 (by decide)

/-- C3 counterexample: after connecting handlers 1 and 2 of receiver 0
and disconnecting once, a connection to receiver 0 remains in the
signal, yet the receiver's sender set no longer lists the signal —
refuting the part of the claim that the sender set still lists the
signal while a connection remains. -/
theorem C3_counterexample :
    stB.conns 0 = [⟨0, 1⟩, ⟨0, 2⟩] ∧ disconnect 0 0 stB = stBad ∧
    (∃ c ∈ stBad.conns 0, c.dest = 0) ∧ (0 : Nat) ∉ stBad.senders 0 :=
  ⟨by decide, rfl, by decide, by decide⟩

/-- C3 (amended): `disconnect(receiver)` removes exactly the first
connection (in sequence order) whose target equals the receiver, and
whenever a match is removed it erases the signal from the receiver's
sender set — even if further connections to that receiver remain in the
signal. -/
theorem C3_disconnect_first (st : WState) (S R : Nat) (l1 l2 : List Conn) (c : Conn)
    (hsplit : st.conns S = l1 ++ c :: l2) (hfirst : ∀ c' ∈ l1, c'.dest ≠ R)
    (hc : c.dest = R) (hnd : (st.senders R).Nodup) :
    (disconnect S R st).conns S = l1 ++ l2 ∧
    (disconnect S R st).senders R = eraseS (st.senders R) S ∧
    S ∉ (disconnect S R st).senders R := by
  have hex : ∃ c' ∈ st.conns S, c'.dest = R := by
    refine ⟨c, ?_, hc⟩
    rw [hsplit]
    exact List.mem_append_right _ (List.mem_cons_self _ _)
  rw [disconnect_of_match hex]
  refine ⟨?_, ?_, ?_⟩
  · show (upd st.conns S (removeFirst R (st.conns S))) S = l1 ++ l2
    rw [upd_same, hsplit, removeFirst_prefix hc l1 l2 hfirst]
  · show (upd st.senders R (eraseS (st.senders R) S)) R = eraseS (st.senders R) S
    rw [upd_same]
  · show S ∉ (upd st.senders R (eraseS (st.senders R) S)) R
    rw [upd_same]
    exact not_mem_eraseS hnd

/-- C3 witness: the amended disconnect theorem at the concrete state
with two connections to receiver 0. -/
theorem C3_disconnect_first_witness :
    stBad.conns 0 = [⟨0, 2⟩] ∧ stBad.senders 0 = eraseS (stB.senders 0) 0 ∧
    (0 : Nat) ∉ stBad.senders 0 := by
  have h := C3_disconnect_first stB 0 0 [] [⟨0, 2⟩] ⟨0, 1⟩
    (by decide) (by decide) (by decide) (by decide)
  exact ⟨h.1, h.2.1, h.2.2⟩

/-- C4: the effect the `slot_disconnect` loop is written to achieve, at
the failing input — among connections to receivers 0, 2, 0, asking to
disconnect receiver 0 removes both matching connections and keeps the
other.  The C++ source reaches this result only through undefined
behaviour: having erased the matching iterator it increments the erased
iterator to continue the loop. -/
theorem C4_slot_disconnect_removes_all :
    slot_disconnect 0 [⟨0, 1⟩, ⟨2, 3⟩, ⟨0, 4⟩] = [⟨2, 3⟩] ∧
    (⟨0, 1⟩ : Conn) ∉ slot_disconnect 0 [⟨0, 1⟩, ⟨2, 3⟩, ⟨0, 4⟩] ∧
    (⟨0, 4⟩ : Conn) ∉ slot_disconnect 0 [⟨0, 1⟩, ⟨2, 3⟩, ⟨0, 4⟩] :=
  ⟨by decide, by decide, by decide⟩

/-- C5 counterexample: in the reachable state `stBad`, signal 0 still
holds a connection targeting receiver 0 — the receiver is connected to
the signal in the plain sense — but the receiver's sender set was
already emptied by the earlier single disconnect.  Destroying receiver 0
therefore notifies no signal: the dangling connection survives the
destruction, and the next emit still invokes handler 2 on the destroyed
receiver — refuting the claim that destroying a connected receiver
prevents any further invocation of its handlers. -/
theorem C5_counterexample :
    Reachable stBad ∧ (∃ c ∈ stBad.conns 0, c.dest = 0) ∧
    (destroyRec 0 stBad).conns 0 = [⟨0, 2⟩] ∧
    (0 : Nat) ∉ (destroyRec 0 stBad).recAlive ∧
    emitTrace (destroyRec 0 stBad) 0 5 = [(0, 2, 5)] :=
  ⟨reachable_stBad, by decide, by decide, by decide, by decide⟩

/-- C5 (amended): destruction safety holds when the registration is
intact.  Destroying a receiver that is still registered in a signal's
sender set leaves that signal with no connection targeting it, so a
subsequent emit invokes none of its handlers; destroying a signal that
holds a connection to a receiver removes the signal from that receiver's
sender set — and empties the set when the signal was its only sender.
The registration proviso is forced by the counterexample: a receiver's
destructor only notifies the signals remaining in its sender set, and a
preceding single disconnect can have unregistered a signal while a
further connection remained. -/
theorem C5_destruction_safety (st : WState) (hst : Reachable st) (S R a : Nat) :
    (S ∈ st.senders R →
      (∀ c ∈ (destroyRec R st).conns S, c.dest ≠ R) ∧
      (∀ p ∈ emitTrace (destroyRec R st) S a, p.1 ≠ R)) ∧
    ((∃ c ∈ st.conns S, c.dest = R) → S ∉ (destroySig S st).senders R) ∧
    (st.senders R = [S] → (destroySig S st).senders R = []) := by
  have hi := reachable_WInv hst
  refine ⟨?_, ?_, ?_⟩
  · intro hS
    have hconn : ∀ c ∈ (destroyRec R st).conns S, c.dest ≠ R := by
      rw [destroyRec_conns]
      exact dropConns_no_target _ _ _ hS
    refine ⟨hconn, ?_⟩
    intro p hp
    rw [emitTrace, emitLoop_eq_map] at hp
    obtain ⟨c, hc, rfl⟩ := List.mem_map.1 hp
    exact hconn c hc
  · intro hex
    rw [destroySig_senders]
    exact eraseSenders_not_mem _ _ _ hi.nodupSenders (Or.inr hex)
  · intro hone
    have hR : R ∈ st.recAlive := by
      by_contra hdead
      rw [hi.deadRec R hdead] at hone
      exact List.cons_ne_nil S [] hone.symm
    have hS : S ∈ st.senders R := by
      rw [hone]
      exact List.mem_cons_self _ _
    have hex := hi.dir1 R hR S hS
    rw [destroySig_senders]
    refine List.eq_nil_iff_forall_not_mem.2 fun T hT => ?_
    have hTmem := eraseSenders_sub _ _ _ _ hT
    rw [hone, List.mem_singleton] at hTmem
    subst hTmem
    exact eraseSenders_not_mem _ _ _ hi.nodupSenders (Or.inr hex) hT

/-- C5 witness: destruction safety at the concrete state with handlers 1
and 2 of receiver 0 connected to signal 0. -/
theorem C5_destruction_safety_witness :
    (∀ c ∈ (destroyRec 0 stB).conns 0, c.dest ≠ 0) ∧
    (0 : Nat) ∉ (destroySig 0 stB).senders 0 ∧
    (destroySig 0 stB).senders 0 = [] := by
  have h := C5_destruction_safety stB reachable_stB 0 0 5
  exact ⟨(h.1 (by decide)).1, h.2.1 (by decide), h.2.2 (by decide)⟩

/-- C6: copy-constructing receiver `R2` from receiver `R` makes every
sender of `R` a sender of `R2`, appends to each such signal one
duplicate (same handler, target `R2`) per connection targeting `R`,
leaves `R`'s connections and sender set unmodified, makes a subsequent
emit invoke the handler on both `R` and `R2`, and disconnecting `R`
afterwards leaves `R2`'s duplicate in place. -/
theorem C6_receiver_copy (st : WState) (R R2 a : Nat)
    (hR : R ∈ st.recAlive) (hR2 : R2 ∉ st.recAlive) (hnd : (st.senders R).Nodup) :
    (∀ S, S ∈ (copyRec R R2 st).senders R2 ↔ S ∈ st.senders R) ∧
    ((copyRec R R2 st).senders R = st.senders R) ∧
    (∀ S ∈ st.senders R,
      (copyRec R R2 st).conns S = st.conns S ++ dupsOf R R2 (st.conns S)) ∧
    (∀ S ∈ st.senders R, ∀ c ∈ st.conns S, c.dest = R →
      (R, c.handler, a) ∈ emitTrace (copyRec R R2 st) S a ∧
      (R2, c.handler, a) ∈ emitTrace (copyRec R R2 st) S a ∧
      (R2, c.handler, a) ∈ emitTrace (disconnect S R (copyRec R R2 st)) S a) := by
  have hRR2 : R ≠ R2 := fun e => hR2 (e ▸ hR)
  refine ⟨?_, ?_, ?_, ?_⟩
  · intro S
    rw [copyRec_senders, upd_same, mem_insertAll]
    simp
  · rw [copyRec_senders, upd_ne hRR2]
  · intro S hS
    rw [copyRec_conns, dupConns_eq_of_mem _ _ _ hnd hS, slot_duplicate_eq hRR2]
  · intro S hS c hc hd
    have hconns : (copyRec R R2 st).conns S = st.conns S ++ dupsOf R R2 (st.conns S) := by
      rw [copyRec_conns, dupConns_eq_of_mem _ _ _ hnd hS, slot_duplicate_eq hRR2]
    have hcmem : c ∈ (copyRec R R2 st).conns S := by
      rw [hconns]
      exact List.mem_append_left _ hc
    have hdup : (⟨R2, c.handler⟩ : Conn) ∈ (copyRec R R2 st).conns S := by
      rw [hconns]
      exact List.mem_append_right _ (dupsOf_mem hd hc)
    refine ⟨?_, ?_, ?_⟩
    · rw [emitTrace, emitLoop_eq_map]
      refine List.mem_map.2 ⟨c, hcmem, ?_⟩
      rw [hd]
    · rw [emitTrace, emitLoop_eq_map]
      exact List.mem_map.2 ⟨⟨R2, c.handler⟩, hdup, rfl⟩
    · have hex : ∃ c' ∈ (copyRec R R2 st).conns S, c'.dest = R := ⟨c, hcmem, hd⟩
      rw [emitTrace, disconnect_of_match hex]
      show (R2, c.handler, a) ∈ emitLoop a
        ((upd (copyRec R R2 st).conns S (removeFirst R ((copyRec R R2 st).conns S))) S)
      rw [upd_same, emitLoop_eq_map]
      exact List.mem_map.2
        ⟨⟨R2, c.handler⟩, mem_removeFirst_of_ne (Ne.symm hRR2) hdup, rfl⟩

/-- C6 witness: receiver copy at the concrete state `stA` — both the
original and the copy are invoked by the next emit, and the duplicate
survives disconnecting the original. -/
theorem C6_receiver_copy_witness :
    ((copyRec 0 1 stA).conns 0 = stA.conns 0 ++ dupsOf 0 1 (stA.conns 0)) ∧
    (0, 1, 9) ∈ emitTrace (copyRec 0 1 stA) 0 9 ∧
    (1, 1, 9) ∈ emitTrace (copyRec 0 1 stA) 0 9 ∧
    (1, 1, 9) ∈ emitTrace (disconnect 0 0 (copyRec 0 1 stA)) 0 9 := by
  have h := C6_receiver_copy stA 0 1 9 (by decide) (by decide) (by decide)
  refine ⟨h.2.2.1 0 (by decide), ?_, ?_, ?_⟩
  · exact (h.2.2.2 0 (by decide) ⟨0, 1⟩ (by decide) (by decide)).1
  · exact (h.2.2.2 0 (by decide) ⟨0, 1⟩ (by decide) (by decide)).2.1
  · exact (h.2.2.2 0 (by decide) ⟨0, 1⟩ (by decide) (by decide)).2.2

/-- C7: emit invokes the handler of every connection currently in the
sequence, once per connection, in sequence order, with the emitted
argument: the trace is exactly the connection list mapped to
invocations; with no connections nothing is invoked; a single connection
fires exactly once; two connections fire in connection order; the same
pair connected twice fires twice. -/
theorem C7_emit_invokes_in_order (st : WState) (S R1 h1 R2 h2 a : Nat) :
    (emitTrace st S a = (st.conns S).map fun c => (c.dest, c.handler, a)) ∧
    (st.conns S = [] → emitTrace st S a = []) ∧
    (st.conns S = [] → emitTrace (connect S R1 h1 st) S a = [(R1, h1, a)]) ∧
    (emitTrace (connect S R2 h2 (connect S R1 h1 st)) S a
      = emitTrace st S a ++ [(R1, h1, a), (R2, h2, a)]) ∧
    (st.conns S = [] →
      emitTrace (connect S R1 h1 (connect S R1 h1 st)) S a
        = [(R1, h1, a), (R1, h1, a)]) := by
  have hconn1 : (connect S R1 h1 st).conns S = st.conns S ++ [⟨R1, h1⟩] := by
    rw [connect_conns, upd_same]
  have hconn2 : (connect S R2 h2 (connect S R1 h1 st)).conns S
      = st.conns S ++ [⟨R1, h1⟩] ++ [⟨R2, h2⟩] := by
    rw [connect_conns, upd_same, hconn1]
  have hconn11 : (connect S R1 h1 (connect S R1 h1 st)).conns S
      = st.conns S ++ [⟨R1, h1⟩] ++ [⟨R1, h1⟩] := by
    rw [connect_conns, upd_same, hconn1]
  refine ⟨emitLoop_eq_map a _, ?_, ?_, ?_, ?_⟩
  · intro h0
    rw [emitTrace, h0]
    rfl
  · intro h0
    rw [emitTrace, hconn1, h0, emitLoop_eq_map]
    rfl
  · rw [emitTrace, hconn2, emitLoop_eq_map, emitTrace, emitLoop_eq_map]
    simp
  · intro h0
    rw [emitTrace, hconn11, h0, emitLoop_eq_map]
    rfl

/-- C7 witness: emitting argument 7 on the concrete state with handlers
1 and 2 connected fires both, in connection order. -/
theorem C7_emit_witness : emitTrace stB 0 7 = [(0, 1, 7), (0, 2, 7)] := by
  have h := C7_emit_invokes_in_order (newRec 0 (newSig 0 st0)) 0 0 1 0 2 7
  have h4 := h.2.2.2.1
  rw [h.2.1 (by decide)] at h4
  exact h4

/-- C8: teardown is idempotent — a second `disconnect_all` on a signal
or on a receiver leaves the state exactly as the first left it, and
disconnecting a receiver that has no connection in the signal changes
nothing at all. -/
theorem C8_idempotent_teardown (st : WState) (S R : Nat) :
    sigDisconnectAll S (sigDisconnectAll S st) = sigDisconnectAll S st ∧
    recDisconnectAll R (recDisconnectAll R st) = recDisconnectAll R st ∧
    ((∀ c ∈ st.conns S, c.dest ≠ R) → disconnect S R st = st) := by
  refine ⟨?_, ?_, ?_⟩
  · have hc : (sigDisconnectAll S st).conns S = [] := by
      rw [sigDisconnectAll_conns, upd_same]
    apply WState.ext
    · rfl
    · rfl
    · show upd (sigDisconnectAll S st).conns S [] = (sigDisconnectAll S st).conns
      rw [sigDisconnectAll_conns, upd_upd]
    · show eraseSenders S ((sigDisconnectAll S st).conns S) (sigDisconnectAll S st).senders
        = (sigDisconnectAll S st).senders
      rw [hc]
      rfl
  · have hs : (recDisconnectAll R st).senders R = [] := by
      rw [recDisconnectAll_senders, upd_same]
    apply WState.ext
    · rfl
    · rfl
    · show dropConns R ((recDisconnectAll R st).senders R) (recDisconnectAll R st).conns
        = (recDisconnectAll R st).conns
      rw [hs]
      rfl
    · show upd (recDisconnectAll R st).senders R [] = (recDisconnectAll R st).senders
      rw [recDisconnectAll_senders, upd_upd]
  · intro h
    refine disconnect_of_no_match ?_
    rintro ⟨c, hc, hd⟩
    exact h c hc hd

/-- C8 witness: idempotent teardown at the concrete state `stB`, and a
no-op disconnect of the never-connected receiver 5. -/
theorem C8_idempotent_witness :
    sigDisconnectAll 0 (sigDisconnectAll 0 stB) = sigDisconnectAll 0 stB ∧
    recDisconnectAll 5 (recDisconnectAll 5 stB) = recDisconnectAll 5 stB ∧
    disconnect 0 5 stB = stB := by
  have h := C8_idempotent_teardown stB 0 5
  exact ⟨h.1, h.2.1, h.2.2 (by decide)⟩

/-- C9: invoking a signal through its call operator is observably
equivalent to calling emit — identical handler invocations and identical
final state, for every state and every argument. -/
theorem C9_operator_eq_emit (st : WState) (S a : Nat) :
    opCall st S a = emitRun st S a ∧ (opCall st S a).1 = st :=
  ⟨rfl, rfl⟩

/-- C10: under the precondition that the new target differs from the old
one, the `slot_duplicate` loop terminates — with fuel for the original
elements plus one step per match it returns a result instead of running
out — and the result appends exactly one duplicate per connection
targeting the old receiver that was present at the start of the call:
the appended duplicates target the new receiver, are revisited by the
traversal, never match, and so never spawn further duplicates. -/
theorem C10_slot_duplicate_terminates (oldt newt : Nat) (hne : newt ≠ oldt)
    (l : List Conn) :
    slotDupFuel oldt newt (l.length + matchCount oldt l) [] l
      = some (l ++ dupsOf oldt newt l) ∧
    (dupsOf oldt newt l).length = matchCount oldt l ∧
    slot_duplicate oldt newt l = l ++ dupsOf oldt newt l := by
  refine ⟨?_, length_dupsOf oldt newt l, slot_duplicate_eq (Ne.symm hne) l⟩
  have h := slotDupFuel_main hne l [] [] fun c hc => absurd hc (List.not_mem_nil c)
  simpa using h

/-- C10 witness: the termination theorem at a concrete list with two
matching connections and one non-matching one. -/
theorem C10_slot_duplicate_witness :
    slot_duplicate 0 1 [⟨0, 5⟩, ⟨2, 6⟩, ⟨0, 7⟩]
      = [⟨0, 5⟩, ⟨2, 6⟩, ⟨0, 7⟩] ++ dupsOf 0 1 [⟨0, 5⟩, ⟨2, 6⟩, ⟨0, 7⟩] :=
  (C10_slot_duplicate_terminates 0 1 (by decide) [⟨0, 5⟩, ⟨2, 6⟩, ⟨0, 7⟩]).2.2

end Sigslot
